import Mathlib

/-!
Verification of the dependency-specifier parser and the format-preserving
configuration merge/diff engine of the `una` monorepo tool, shallowly
embedded from `src/una/una/models.py` (and, where the repository ships only
tests for a function, from the specification).

Python strings are modelled as `String` / `List Char`; Python's `str.split`,
`str.replace`, membership tests and `dict` operations are modelled by
executable char-level functions defined below, so every concrete run of the
embedded code reduces by `rfl`/`decide`.
-/

/-! ## Char-level models of the Python string primitives used by the source -/

/-- Model of Python's `pat in s` (substring occurrence test), via the split
at the first occurrence of `pat`.  Returns the text before the first
occurrence of `pat` and the suffix starting at that occurrence; `none` when
`pat` does not occur.  `acc` is the already-scanned prefix. -/
def splitAtSub (pat : List Char) (acc : List Char) : List Char → Option (List Char × List Char)
  | [] => none
  | c :: rest =>
    if pat.isPrefixOf (c :: rest) then some (acc, c :: rest)
    else splitAtSub pat (acc ++ [c]) rest

/-- Model of Python's `pat in s`. -/
def containsSub (s pat : String) : Bool :=
  (splitAtSub pat.data [] s.data).isSome

/-- Model of Python's `s.count`-free single-char membership `c in s`. -/
def hasChar (s : String) (c : Char) : Bool :=
  s.data.any (fun d => d == c)

/-- Model of Python's `s.split(sep)` for a single-character separator
(keeps empty segments, like Python). -/
def pySplitChar (sep : Char) : List Char → List (List Char)
  | [] => [[]]
  | c :: rest =>
    if c == sep then [] :: pySplitChar sep rest
    else
      match pySplitChar sep rest with
      | [] => [[c]]
      | p :: ps => (c :: p) :: ps

/-- Model of Python's `s.strip()` (used by the specifier parser's bare form:
the spec says the name is the entire *trimmed* string). -/
def pyStrip (s : String) : String :=
  ⟨((s.data.dropWhile Char.isWhitespace).reverse.dropWhile Char.isWhitespace).reverse⟩

/-! ## Specifier parser (spec §4.1)

Modelled from the spec: `_parse_deps_table` lives in `una/package_deps.py`,
which is not part of the sources here (only its tests are).  The grammar of
spec §4.1 is embedded directly:
1. URL form: split at the first occurrence of `" @ "`; the version keeps the
   `" @ "` prefix verbatim.
2. Constrained form: first operator character in `{<, >, =, !, ~}` appearing
   outside a `[...]` extras group (brackets tracked by a depth counter).
3. Bare form: `(trimmed string, "")`. -/

/-- Operator characters that begin a version constraint (spec §4.1 rule 2). -/
def isOpChar (c : Char) : Bool :=
  c == '<' || c == '>' || c == '=' || c == '!' || c == '~'

/-- Modelled from the spec: scan left to right for the first operator
character outside a `[...]` extras group; return the text before it and the
suffix from it on.  `depth` tracks bracket nesting, `acc` the scanned prefix. -/
def splitAtOp (depth : Nat) (acc : List Char) : List Char → Option (List Char × List Char)
  | [] => none
  | c :: rest =>
    if c == '[' then splitAtOp (depth + 1) (acc ++ [c]) rest
    else if c == ']' then splitAtOp (depth - 1) (acc ++ [c]) rest
    else if depth == 0 && isOpChar c then some (acc, c :: rest)
    else splitAtOp depth (acc ++ [c]) rest

/-- Modelled from the spec: `parse(raw) -> (name, version)` of spec §4.1
(the repository's `_parse_deps_table`, absent from the sources). -/
def parseDep (raw : String) : String × String :=
  match splitAtSub " @ ".data [] raw.data with
  | some (pre, suf) => (⟨pre⟩, ⟨suf⟩)
  | none =>
    match splitAtOp 0 [] raw.data with
    | some (pre, suf) => (⟨pre⟩, ⟨suf⟩)
    | none => (pyStrip raw, "")

/-- The URL-form delimiter `" @ "` as a char list. -/
def atPat : List Char := [' ', '@', ' ']

/-! ## Dependency record model and diff engine (models.py lines 14-40, spec §4.4) -/

/-- External dependency (models.py `ExtDep`). -/
structure ExtDep where
  name : String
  version : String
deriving DecidableEq

/-- Internal (workspace) dependency (models.py `IntDep`). -/
structure IntDep where
  name : String
  version : String := ""
deriving DecidableEq

/-- One workspace package's dependency record (models.py `PackageDeps`);
`Path` is modelled as a string. -/
structure PackageDeps where
  name : String
  path : String
  ext_deps : List ExtDep
  int_deps : List IntDep

/-- Mapping from dependency name to the set of imported module names
(models.py `Imports`); sets are modelled as lists. -/
def Imports : Type := List (String × List String)

/-- Diff report (models.py `CheckDiff`); the `set[str]` fields are modelled
as lists. -/
structure CheckDiff where
  package : PackageDeps
  int_dep_imports : Imports
  ext_dep_imports : Imports
  int_dep_diff : List String
  ext_dep_diff : List String

/-- Symmetric-difference-style report over two name lists: names declared
but absent from the import keys, plus import keys absent from the declared
names. -/
def nameDiff (declared keys : List String) : List String :=
  declared.filter (fun n => !keys.contains n) ++ keys.filter (fun k => !declared.contains k)

/-- Modelled from the spec: the diff engine `compute` of spec §4.4 (its
source lives outside the files shipped here; only the `CheckDiff` record is
in models.py). -/
def computeDiff (pkg : PackageDeps) (int_imports ext_imports : Imports) : CheckDiff :=
  { package := pkg
    int_dep_imports := int_imports
    ext_dep_imports := ext_imports
    int_dep_diff := nameDiff (pkg.int_deps.map IntDep.name) (int_imports.map Prod.fst)
    ext_dep_diff := nameDiff (pkg.ext_deps.map ExtDep.name) (ext_imports.map Prod.fst) }

/-! ## Global semicolon normalization (models.py `to_str`, lines 179-194)

The source performs `result.replace(";", "; ")` followed by
`result.replace("  ", " ")`.  Python's `str.replace` substitutes
non-overlapping occurrences left to right; for these two concrete patterns
it is modelled by the char-level passes below. -/

/-- Model of `result.replace(";", "; ")`: one space inserted after every
semicolon. -/
def semiSpace : List Char → List Char
  | [] => []
  | c :: rest => if c == ';' then c :: ' ' :: semiSpace rest else c :: semiSpace rest

/-- Model of `result.replace("  ", " ")`: one left-to-right pass replacing
non-overlapping double spaces by single spaces (after a replacement the scan
resumes past the replaced pair, as Python's `str.replace` does). -/
def squeeze : List Char → List Char
  | [] => []
  | [c] => [c]
  | c :: d :: rest =>
    if c == ' ' && d == ' ' then ' ' :: squeeze rest else c :: squeeze (d :: rest)

/-- The whole-document post-processing pass of `to_str`. -/
def semiFix (s : String) : String := ⟨squeeze (semiSpace s.data)⟩

/-! ## Per-dependency semicolon rewrite (models.py `to_tomldoc`, lines 140-147) -/

/-- Model of `";".join([dep_parts[0]] + [f" {part}" for part in dep_parts[1:]])`:
re-join the split parts with `";"`, prefixing each later part with one space. -/
def fixJoin (p : List Char) : List (List Char) → List Char
  | [] => p
  | q :: rest => p ++ ';' :: ' ' :: fixJoin q rest

/-- The rewrite applied to a new dependency before it is appended:
`dep_parts = dep.split(";")`, then the space-prefixing re-join. -/
def fixSemis (dep : String) : String :=
  match pySplitChar ';' dep.data with
  | [] => dep
  | p :: ps => ⟨fixJoin p ps⟩

/-- The trigger `" @ " in dep and ";" in dep` used both for the per-line
rewrite and for the global pass. -/
def hasUrlMarker (dep : String) : Bool :=
  containsSub dep " @ " && hasChar dep ';'

/-- A new dependency as appended by `to_tomldoc`: rewritten when it contains
both `" @ "` and `";"`, verbatim otherwise. -/
def normDep (dep : String) : String :=
  if hasUrlMarker dep then fixSemis dep else dep

/-- First-occurrence deduplication; models iterating over the Python set
`set(overlay) - set(orig)` (set iteration order is not observable in any
claim; first-occurrence order is used). -/
def dedupFirst (seen : List String) : List String → List String
  | [] => []
  | x :: xs => if seen.contains x then dedupFirst seen xs else x :: dedupFirst (x :: seen) xs

/-- `new_deps = set(self.project.dependencies) - set(orig_deps)`
(models.py line 139). -/
def newDepsOf (overlay orig : List String) : List String :=
  dedupFirst [] (overlay.filter (fun d => !orig.contains d))

/-! ## Format-preserving TOML document model (the tomlkit subset the source uses)

`tomlkit` parses a document into a tree that renders back to the original
text.  The subset exercised by models.py is embedded as: a document is a
preamble plus a list of `[dotted.path]` sections; a section holds key-value
lines (string, boolean, array-of-strings and inline-table-of-primitive
values) and verbatim comment/blank lines. -/

inductive Prim where
  | pStr (s : String)
  | pBool (b : Bool)
deriving DecidableEq

inductive Val where
  | prim (p : Prim)
  | arr (xs : List String)
  | itab (kvs : List (String × Prim))
deriving DecidableEq

inductive Line where
  | kv (k : String) (v : Val)
  | raw (s : String)
deriving DecidableEq

structure Sec where
  path : List String
  lines : List Line
deriving DecidableEq

structure TomlDoc where
  preamble : List Line
  sections : List Sec
deriving DecidableEq

/-! ### Rendering (`tomlkit.dumps`) -/

def quoteStr (s : String) : String := "\"" ++ s ++ "\""

def joinSep (sep : String) : List String → String
  | [] => ""
  | [x] => x
  | x :: xs => x ++ sep ++ joinSep sep xs

def printPrim : Prim → String
  | .pStr s => quoteStr s
  | .pBool true => "true"
  | .pBool false => "false"

def printVal : Val → String
  | .prim p => printPrim p
  | .arr xs => "[" ++ joinSep ", " (xs.map quoteStr) ++ "]"
  | .itab kvs => "\x7b" ++ joinSep ", " (kvs.map (fun kv => kv.1 ++ " = " ++ printPrim kv.2)) ++ "\x7d"

def printLine : Line → String
  | .kv k v => k ++ " = " ++ printVal v ++ "\n"
  | .raw s => s ++ "\n"

def printLines (ls : List Line) : String := String.join (ls.map printLine)

def printSec (s : Sec) : String := "[" ++ joinSep "." s.path ++ "]\n" ++ printLines s.lines

/-- Model of `tomlkit.dumps`. -/
def printDoc (d : TomlDoc) : String :=
  printLines d.preamble ++ String.join (d.sections.map printSec)

/-! ### Parsing (`tomlkit.loads`, restricted to canonically formatted text) -/

def isBareKeyChar (c : Char) : Bool := c.isAlphanum || c == '-' || c == '_'

def isBareKey (s : String) : Bool := !s.data.isEmpty && s.data.all isBareKeyChar

/-- Consume a basic string body up to its closing quote (no escapes in the
modelled subset). -/
def takeQuoted (acc : List Char) : List Char → Option (String × List Char)
  | [] => none
  | '"' :: rest => some (⟨acc.reverse⟩, rest)
  | '\\' :: _ => none
  | c :: rest => takeQuoted (c :: acc) rest

/-- Elements of an array of strings, separated by `", "`. -/
def parseElems (fuel : Nat) (l : List Char) : Option (List String) :=
  match fuel with
  | 0 => none
  | fuel + 1 =>
    match l with
    | '"' :: rest =>
      match takeQuoted [] rest with
      | some (s, []) => some [s]
      | some (s, ',' :: ' ' :: rest') => (parseElems fuel rest').map (s :: ·)
      | _ => none
    | _ => none

/-- A bare key followed by `" = "`. -/
def takeKey (acc : List Char) : List Char → Option (String × List Char)
  | [] => none
  | ' ' :: '=' :: ' ' :: rest =>
    if acc.isEmpty then none else some (⟨acc.reverse⟩, rest)
  | c :: rest => if isBareKeyChar c then takeKey (c :: acc) rest else none

def takePrim : List Char → Option (Prim × List Char)
  | '"' :: rest => (takeQuoted [] rest).map (fun sr => (.pStr sr.1, sr.2))
  | 't' :: 'r' :: 'u' :: 'e' :: rest => some (.pBool true, rest)
  | 'f' :: 'a' :: 'l' :: 's' :: 'e' :: rest => some (.pBool false, rest)
  | _ => none

/-- Entries of an inline table, separated by `", "`. -/
def parsePairs (fuel : Nat) (l : List Char) : Option (List (String × Prim)) :=
  match fuel with
  | 0 => none
  | fuel + 1 =>
    match takeKey [] l with
    | none => none
    | some (k, rest) =>
      match takePrim rest with
      | some (p, []) => some [(k, p)]
      | some (p, ',' :: ' ' :: rest') => (parsePairs fuel rest').map ((k, p) :: ·)
      | _ => none

def parseVal (v : String) : Option Val :=
  if v = "true" then some (.prim (.pBool true))
  else if v = "false" then some (.prim (.pBool false))
  else
    match v.data with
    | '"' :: rest =>
      (match takeQuoted [] rest with
       | some (s, []) => some (.prim (.pStr s))
       | _ => none)
    | '[' :: rest =>
      (match rest.getLast?, rest.dropLast with
       | some ']', inner =>
         if inner.isEmpty then some (.arr [])
         else (parseElems (inner.length + 1) inner).map .arr
       | _, _ => none)
    | '\x7b' :: rest =>
      (match rest.getLast?, rest.dropLast with
       | some '\x7d', inner =>
         if inner.isEmpty then some (.itab [])
         else (parsePairs (inner.length + 1) inner).map .itab
       | _, _ => none)
    | _ => none

inductive PLine where
  | header (path : List String)
  | entry (l : Line)

def parseHeader (l : String) : Option (List String) :=
  match l.data with
  | '[' :: rest =>
    (match rest.getLast?, rest.dropLast with
     | some ']', inner =>
       (match inner with
        | '[' :: _ => none
        | _ =>
          let comps := (pySplitChar '.' inner).map (fun cs => (⟨cs⟩ : String))
          if comps.all isBareKey then some comps else none)
     | _, _ => none)
  | _ => none

def parseLine (l : String) : Option PLine :=
  match l.data with
  | [] => some (.entry (.raw l))
  | '#' :: _ => some (.entry (.raw l))
  | '[' :: _ => (parseHeader l).map PLine.header
  | _ =>
    match splitAtSub " = ".data [] l.data with
    | some (kpart, rest) =>
      let k : String := ⟨kpart⟩
      if isBareKey k then (parseVal ⟨rest.drop 3⟩).map (fun v => PLine.entry (.kv k v))
      else none
    | none => none

def addPLine (d : TomlDoc) (p : PLine) : TomlDoc :=
  match p with
  | .header path => { d with sections := d.sections ++ [⟨path, []⟩] }
  | .entry ln =>
    match d.sections.getLast? with
    | none => { d with preamble := d.preamble ++ [ln] }
    | some s => { d with sections := d.sections.dropLast ++ [{ s with lines := s.lines ++ [ln] }] }

/-- Model of `tomlkit.loads`, restricted to the canonically formatted subset
(text must end with a newline; each line is a comment/blank, a `[header]`,
or a `key = value` pair). -/
def parseDoc (s : String) : Option TomlDoc :=
  let parts := pySplitChar '\n' s.data
  match parts.getLast? with
  | some [] =>
    match (parts.dropLast.map (fun cs => (⟨cs⟩ : String))).mapM parseLine with
    | some pls => some (pls.foldl addPLine ⟨[], []⟩)
    | none => none
  | _ => none

/-! ## The raw-dict view and `_rename_keys` (models.py lines 43-51)

`_rename_keys` operates on the generic parsed structure (`Json` in the
source's type alias): it recurses into dict values and renames dict keys, and
it does not enter lists (`isinstance(d, dict)` is false for a list, and list
elements are never visited).  The dict view is embedded as a dedicated
mutually inductive type so that all recursion stays structural. -/

mutual
inductive Json where
  | jStr (s : String)
  | jBool (b : Bool)
  | jArr (xs : JArr)
  | jObj (kvs : JObj)
inductive JArr where
  | nil
  | cons (hd : Json) (tl : JArr)
inductive JObj where
  | nil
  | cons (key : String) (val : Json) (tl : JObj)
end

def jobjAppend : JObj → JObj → JObj
  | .nil, o => o
  | .cons k v tl, o => .cons k v (jobjAppend tl o)

def objGet : JObj → String → Option Json
  | .nil, _ => none
  | .cons k v tl, key => if k = key then some v else objGet tl key

/-- Python `d[key] = v`: replace in place when the key is present, append
otherwise. -/
def objSet : JObj → String → Json → JObj
  | .nil, key, v => .cons key v .nil
  | .cons k w tl, key, v =>
    if k = key then .cons k v tl else .cons k w (objSet tl key v)

/-- Python `d.update(p)`. -/
def objUpdate : JObj → JObj → JObj
  | o, .nil => o
  | o, .cons k v tl => objUpdate (objSet o k v) tl

/-- `k.replace("-", "_")`. -/
def dashToUnderscore (k : String) : String :=
  ⟨k.data.map (fun c => if c == '-' then '_' else c)⟩

mutual
/-- Model of `_rename_keys("-", "_")` from models.py: values that are dicts
are renamed recursively; entries whose key contains `"-"` are re-inserted at
the end under the underscore key (Python's `d[new] = d.pop(old)`); lists are
never entered.  Documents whose tables carry both spellings of a key (so
that the re-insertion would collide) are outside the modelled domain. -/
def renameJson : Json → Json
  | .jObj o => .jObj (jobjAppend (renObj o).1 (renObj o).2)
  | j => j
/-- One table: kept entries (key without `"-"`, original positions) and
moved entries (renamed key, appended in iteration order). -/
def renObj : JObj → JObj × JObj
  | .nil => (.nil, .nil)
  | .cons k v tl =>
    let r := renObj tl
    if hasChar k '-' then (r.1, .cons (dashToUnderscore k) (renameJson v) r.2)
    else (.cons k (renameJson v) r.1, r.2)
end

/-! ### The dict view of a parsed document -/

def listToJArr : List Json → JArr
  | [] => .nil
  | x :: xs => .cons x (listToJArr xs)

def primToJson : Prim → Json
  | .pStr s => .jStr s
  | .pBool b => .jBool b

def pairsToJObj : List (String × Prim) → JObj
  | [] => .nil
  | kv :: rest => .cons kv.1 (primToJson kv.2) (pairsToJObj rest)

def valToJson : Val → Json
  | .prim p => primToJson p
  | .arr xs => .jArr (listToJArr (xs.map Json.jStr))
  | .itab kvs => .jObj (pairsToJObj kvs)

/-- The key-value lines of one section as a dict (comments are not dict
entries; duplicate keys follow Python dict assignment). -/
def linesToJObj (ls : List Line) : JObj :=
  ls.foldl
    (fun o l => match l with
      | .kv k v => objSet o k (valToJson v)
      | .raw _ => o)
    .nil

/-- Place a section's table at its dotted path, creating the intermediate
(super-)tables, merging when the path already exists. -/
def insertPath : JObj → List String → JObj → JObj
  | o, [], sub => objUpdate o sub
  | o, k :: rest, sub =>
    match objGet o k with
    | some (.jObj inner) => objSet o k (.jObj (insertPath inner rest sub))
    | _ => objSet o k (.jObj (insertPath .nil rest sub))

/-- The nested-dict view of a parsed document (what `tomlkit` hands to
`dataclasses_json`). -/
def toJson (d : TomlDoc) : Json :=
  .jObj (d.sections.foldl (fun o s => insertPath o s.path (linesToJObj s.lines))
    (linesToJObj d.preamble))

/-! ## Typed overlay structures (models.py lines 54-114) -/

structure Project where
  name : String := ""
  dependencies : List String := []
  version : Option String := none
  requires_python : String := ">= 3.8"
deriving DecidableEq

structure UvWorkspace where
  members : List String := ["libs/*", "apps/*"]
deriving DecidableEq

structure UvSourceIsWorkspace where
  workspace : Bool := false
deriving DecidableEq

structure Uv where
  workspace : UvWorkspace := {}
  sources : List (String × UvSourceIsWorkspace) := []
deriving DecidableEq

/-- models.py `Una`; note it has `namespace` and `requires_python` fields
only — no `deps` field (`namespace` is a Lean keyword, hence the underscore). -/
structure Una where
  namespace_ : Option String := none
  requires_python : Option String := none
deriving DecidableEq

structure Tool where
  uv : Uv := {}
  una : Una := {}
deriving DecidableEq

structure Conf where
  tool : Tool
  project : Project := {}
  _tomldoc : Option TomlDoc := none
deriving DecidableEq

/-! ### `dataclasses_json` coercion, modelled as strict decoding of the
renamed dict view (missing keys take the dataclass defaults; a present key
of the wrong shape is a schema error). -/

def decodeStr : Json → Option String
  | .jStr s => some s
  | _ => none

def decodeBool : Json → Option Bool
  | .jBool b => some b
  | _ => none

def jarrToList : JArr → List Json
  | .nil => []
  | .cons x tl => x :: jarrToList tl

def jobjEntries : JObj → List (String × Json)
  | .nil => []
  | .cons k v tl => (k, v) :: jobjEntries tl

def decodeStrList : Json → Option (List String)
  | .jArr xs => (jarrToList xs).mapM decodeStr
  | _ => none

def decodeOptStr (o : JObj) (k : String) : Option (Option String) :=
  match objGet o k with
  | none => some none
  | some j => (decodeStr j).map some

def decodeProject : Option Json → Option Project
  | none => some {}
  | some (.jObj o) => do
    let name ← match objGet o "name" with
      | none => some "" | some j => decodeStr j
    let deps ← match objGet o "dependencies" with
      | none => some [] | some j => decodeStrList j
    let ver ← decodeOptStr o "version"
    let rp ← match objGet o "requires_python" with
      | none => some ">= 3.8" | some j => decodeStr j
    some ⟨name, deps, ver, rp⟩
  | some _ => none

def decodeUvWorkspace : Option Json → Option UvWorkspace
  | none => some {}
  | some (.jObj o) =>
    (match objGet o "members" with
     | none => some ["libs/*", "apps/*"] | some j => decodeStrList j).map (⟨·⟩)
  | some _ => none

def decodeSourceFlag : Json → Option UvSourceIsWorkspace
  | .jObj o =>
    (match objGet o "workspace" with
     | none => some false | some j => decodeBool j).map (⟨·⟩)
  | _ => none

def decodeSources : Option Json → Option (List (String × UvSourceIsWorkspace))
  | none => some []
  | some (.jObj o) => (jobjEntries o).mapM (fun kv => (decodeSourceFlag kv.2).map ((kv.1, ·)))
  | some _ => none

def decodeUv : Option Json → Option Uv
  | none => some {}
  | some (.jObj o) => do
    let w ← decodeUvWorkspace (objGet o "workspace")
    let s ← decodeSources (objGet o "sources")
    some ⟨w, s⟩
  | some _ => none

def decodeUna : Option Json → Option Una
  | none => some {}
  | some (.jObj o) => do
    let n ← decodeOptStr o "namespace"
    let rp ← decodeOptStr o "requires_python"
    some ⟨n, rp⟩
  | some _ => none

def decodeTool : Json → Option Tool
  | .jObj o => do
    let uv ← decodeUv (objGet o "uv")
    let una ← decodeUna (objGet o "una")
    some ⟨uv, una⟩
  | _ => none

/-- `Conf.from_dict`: the `tool` field is required (it has no dataclass
default), `project` falls back to its default. -/
def decodeConf : Json → Option (Project × Tool)
  | .jObj root => do
    let t ← match objGet root "tool" with
      | none => none | some tj => decodeTool tj
    let p ← decodeProject (objGet root "project")
    some (p, t)
  | _ => none

/-! ## Load and serialize (models.py lines 124-194) -/

inductive Err where
  | malformed
  | schema
  | valueError
  | keyError
  | attrError
deriving DecidableEq

/-- models.py `Conf.from_tomldoc`: keep the pre-rename original as the
format-preservation anchor (`orig = deepcopy(tomldoc)`), rename the keys of
the argument in place, and coerce the renamed structure into the typed
fields.  The in-place mutation of the caller's document is modelled by the
value `renameJson (toJson d)` (see the C10 theorems). -/
def Conf.from_tomldoc (d : TomlDoc) : Except Err Conf :=
  match decodeConf (renameJson (toJson d)) with
  | none => .error .schema
  | some (p, t) => .ok { tool := t, project := p, _tomldoc := some d }

/-- models.py `Conf.from_str`. -/
def Conf.from_str (s : String) : Except Err Conf :=
  match parseDoc s with
  | none => .error .malformed
  | some d => Conf.from_tomldoc d

/-! ### Anchor-document accessors used by `to_tomldoc` -/

def secGet : List Line → String → Option Val
  | [], _ => none
  | .kv k v :: rest, key => if k = key then some v else secGet rest key
  | .raw _ :: rest, key => secGet rest key

def setKvFirst : List Line → String → Val → Option (List Line)
  | [], _, _ => none
  | .kv k w :: rest, key, v =>
    if k = key then some (.kv k v :: rest)
    else (setKvFirst rest key v).map (.kv k w :: ·)
  | .raw s :: rest, key, v => (setKvFirst rest key v).map (.raw s :: ·)

def findSection : List Sec → List String → Option (List Line)
  | [], _ => none
  | s :: rest, p => if s.path = p then some s.lines else findSection rest p

def replaceFirstSec (p : List String) (f : List Line → Option (List Line)) :
    List Sec → Option (List Sec)
  | [] => none
  | s :: rest =>
    if s.path = p then (f s.lines).map (fun L => { s with lines := L } :: rest)
    else (replaceFirstSec p f rest).map (s :: ·)

def depsOfLines (L : List Line) : Option (List String) :=
  match secGet L "dependencies" with
  | some (.arr xs) => some xs
  | _ => none

/-- `tomldoc["project"]["dependencies"]` on the anchor (a missing path is an
uncaught `KeyError` in the source; a non-array value fails downstream there
and is folded into the same error here). -/
def getDeps (d : TomlDoc) : Option (List String) :=
  (findSection d.sections ["project"]).bind depsOfLines

def setDeps (d : TomlDoc) (xs : List String) : Option TomlDoc :=
  (replaceFirstSec ["project"] (fun L => setKvFirst L "dependencies" (.arr xs)) d.sections).map
    (fun ss => { d with sections := ss })

/-- The value written for one sources entry: `v.to_dict()` of
`UvSourceIsWorkspace`, rendered by tomlkit as the inline table
`\x7bworkspace = b\x7d`. -/
def srcVal (b : Bool) : Val := .itab [("workspace", .pBool b)]

/-- One step of `dict.update` on the sources table: overwrite in place or
append. -/
def setSourceKey (L : List Line) (k : String) (b : Bool) : List Line :=
  match setKvFirst L k (srcVal b) with
  | some L' => L'
  | none => L ++ [.kv k (srcVal b)]

/-- `tomldoc["tool"]["uv"]["sources"].update(sources)`. -/
def upsertLines (L : List Line) (m : List (String × Bool)) : List Line :=
  m.foldl (fun L kb => setSourceKey L kb.1 kb.2) L

/-- `{k: v.to_dict() for k, v in self.tool.uv.sources.items()}`. -/
def srcMapOf (c : Conf) : List (String × Bool) :=
  c.tool.uv.sources.map (fun kv => (kv.1, kv.2.workspace))

def updateUvSources (d : TomlDoc) (m : List (String × Bool)) : Option TomlDoc :=
  (replaceFirstSec ["tool", "uv", "sources"] (fun L => some (upsertLines L m)) d.sections).map
    (fun ss => { d with sections := ss })

/-- models.py `Conf.to_tomldoc` (lines 132-159).  The `except KeyError`
branch of the source immediately evaluates `self.tool.una.deps`, but `Una`
has no `deps` field, so that branch raises an uncaught `AttributeError`;
it is embedded as `Err.attrError`. -/
def Conf.to_tomldoc (c : Conf) : Except Err TomlDoc :=
  match c._tomldoc with
  | none => .error .valueError
  | some a =>
    match getDeps a with
    | none => .error .keyError
    | some od =>
      let nd := (newDepsOf c.project.dependencies od).map normDep
      match setDeps a (od ++ nd) with
      | none => .error .keyError
      | some a1 =>
        match updateUvSources a1 (srcMapOf c) with
        | some a2 => .ok a2
        | none => .error .attrError

/-- models.py `Conf.to_str` (lines 166-194): render, then run the global
semicolon pass when any current dependency contains both `" @ "` and `";"`. -/
def Conf.to_str (c : Conf) : Except Err String :=
  match c.to_tomldoc with
  | .error e => .error e
  | .ok doc =>
    if c.project.dependencies.any hasUrlMarker then .ok (semiFix (printDoc doc))
    else .ok (printDoc doc)

/-! ## Output checkers used to state the semicolon-normalization claims -/

/-- Every semicolon in the text is immediately followed by a space. -/
def semisSpaced : List Char → Bool
  | [] => true
  | [c] => !(c == ';')
  | c :: d :: l => (!(c == ';') || (d == ' ')) && semisSpaced (d :: l)

/-- The head of the text is not a space. -/
def headNotSpace : List Char → Bool
  | [] => true
  | e :: _ => !(e == ' ')

/-- Every semicolon in the text is followed by exactly one space. -/
def semisSingle : List Char → Bool
  | [] => true
  | [c] => !(c == ';')
  | c :: d :: l => (!(c == ';') || (d == ' ' && headNotSpace l)) && semisSingle (d :: l)

/-! ## Hyphen-key checkers on the dict view -/

mutual
/-- Some table key reachable without crossing an array contains `"-"`
(exactly the region `_rename_keys` visits). -/
def jsonHypKey : Json → Bool
  | .jObj o => jobjHypKey o
  | _ => false
def jobjHypKey : JObj → Bool
  | .nil => false
  | .cons k v tl => hasChar k '-' || jsonHypKey v || jobjHypKey tl
end

mutual
/-- Some key anywhere in the structure, arrays included, contains `"-"`. -/
def jsonHypKeyDeep : Json → Bool
  | .jObj o => jobjHypKeyDeep o
  | .jArr xs => jarrHypKeyDeep xs
  | _ => false
def jarrHypKeyDeep : JArr → Bool
  | .nil => false
  | .cons x tl => jsonHypKeyDeep x || jarrHypKeyDeep tl
def jobjHypKeyDeep : JObj → Bool
  | .nil => false
  | .cons k v tl => hasChar k '-' || jsonHypKeyDeep v || jobjHypKeyDeep tl
end

/-- Some top-level key of the table contains `"-"`. -/
def jobjTopDash : JObj → Bool
  | .nil => false
  | .cons k _ tl => hasChar k '-' || jobjTopDash tl

/-! ## Concrete documents and configurations used by the claim theorems -/

/-- A canonically formatted text with no semicolon-URL dependency. -/
def rtText : String := "[project]\ndependencies = [\"a>=1.0\"]\n[tool.uv.sources]\n"

def rtDoc : TomlDoc :=
  ⟨[], [⟨["project"], [.kv "dependencies" (.arr ["a>=1.0"])]⟩, ⟨["tool", "uv", "sources"], []⟩]⟩

def rtConf : Conf := ⟨{}, { dependencies := ["a>=1.0"] }, some rtDoc⟩

/-- A text whose only dependency contains both `" @ "` and `";"`. -/
def cexText : String := "[project]\ndependencies = [\"a @ http://y;m\"]\n[tool.uv.sources]\n"

/-- What serializing the untouched load of `cexText` produces. -/
def cexOutText : String := "[project]\ndependencies = [\"a @ http://y; m\"]\n[tool.uv.sources]\n"

/-- A text with a triggering dependency and a comment containing `";"`
followed by two spaces. -/
def t3Text : String :=
  "[project]\ndependencies = [\"n @ http://x;cond\"]\n#;  note\n[tool.uv.sources]\n"

/-- What serializing the untouched load of `t3Text` produces. -/
def t3OutText : String :=
  "[project]\ndependencies = [\"n @ http://x; cond\"]\n#;  note\n[tool.uv.sources]\n"

def mergeAnchor : TomlDoc :=
  ⟨[], [⟨["project"], [.kv "dependencies" (.arr ["a>=1.0"])]⟩, ⟨["tool", "uv", "sources"], []⟩]⟩

def mergeConf : Conf := ⟨{}, { dependencies := ["a>=1.0", "b>=2.0"] }, some mergeAnchor⟩

def mergeResult : TomlDoc :=
  ⟨[], [⟨["project"], [.kv "dependencies" (.arr ["a>=1.0", "b>=2.0"])]⟩,
    ⟨["tool", "uv", "sources"], []⟩]⟩

def urlDepAnchor : TomlDoc :=
  ⟨[], [⟨["project"], [.kv "dependencies" (.arr [])]⟩, ⟨["tool", "uv", "sources"], []⟩]⟩

/-- An overlay whose new dependency already has a space after its semicolon. -/
def urlDepConf : Conf := ⟨{}, { dependencies := ["a @ u; m"] }, some urlDepAnchor⟩

def urlDepResult : TomlDoc :=
  ⟨[], [⟨["project"], [.kv "dependencies" (.arr ["a @ u;  m"])]⟩,
    ⟨["tool", "uv", "sources"], []⟩]⟩

/-- An anchor with no `tool.uv.sources` table: serialization takes the
fallback branch. -/
def noSourcesAnchor : TomlDoc := ⟨[], [⟨["project"], [.kv "dependencies" (.arr [])]⟩]⟩

def noSourcesConf : Conf := ⟨{}, {}, some noSourcesAnchor⟩

def tinyDoc : TomlDoc := ⟨[], [⟨["tool"], []⟩]⟩

def tinyConf : Conf := ⟨{}, {}, some tinyDoc⟩

def plainDoc : TomlDoc :=
  ⟨[], [⟨["project"], [.kv "name" (.prim (.pStr "x"))]⟩, ⟨["tool"], []⟩]⟩

def plainConf : Conf := ⟨{}, { name := "x" }, some plainDoc⟩

/-- A parsed structure whose only hyphenated key sits inside an array. -/
def hyphenInArray : Json :=
  .jObj (.cons "k" (.jArr (.cons (.jObj (.cons "a-b" (.jBool true) .nil)) .nil)) .nil)

/-- A table with a hyphenated top-level key. -/
def dashTable : Json := .jObj (.cons "a-b" (.jBool true) .nil)

/-! ## Basic lemmas about the char-level primitives -/

theorem contains_iff_mem (l : List String) (x : String) : l.contains x = true ↔ x ∈ l := by
  simp [List.contains, List.elem_iff]

theorem mem_nameDiff (declared keys : List String) (n : String) :
    n ∈ nameDiff declared keys ↔
      (n ∈ declared ∧ n ∉ keys) ∨ (n ∈ keys ∧ n ∉ declared) := by
  simp [nameDiff, List.mem_filter]

theorem splitAtSub_none_acc (pat : List Char) :
    ∀ (l acc acc' : List Char), splitAtSub pat acc l = none → splitAtSub pat acc' l = none := by
  intro l
  induction l with
  | nil => intro acc acc' h; simp [splitAtSub]
  | cons c rest ih =>
    intro acc acc' h
    by_cases hp : pat.isPrefixOf (c :: rest)
    · simp [splitAtSub, hp] at h
    · simp only [splitAtSub, hp, if_neg, Bool.false_eq_true, ite_false] at h ⊢
      exact ih _ _ h

theorem sublist_suffix_trans {s pre' : List Char} (c : Char) (h : s <:+ pre') :
    s <:+ (c :: pre') := h.trans (List.suffix_cons c pre')

/-- Where the first occurrence of `" @ "` sits: scanning `pre ++ " @ " ++ suf`
finds the split at the boundary provided `" @ "` does not occur in `pre` and
`pre` does not end in `" @"`. -/
theorem splitAtSub_atPat_append :
    ∀ (pre : List Char) (acc suf : List Char),
      splitAtSub atPat [] pre = none → ¬ ([' ', '@'] <:+ pre) →
      splitAtSub atPat acc (pre ++ atPat ++ suf) = some (acc ++ pre, atPat ++ suf) := by
  intro pre
  induction pre with
  | nil =>
    intro acc suf _ _
    simp [splitAtSub, atPat, List.isPrefixOf]
  | cons c pre' ih =>
    intro acc suf hno hend
    have hnp : ¬ atPat.isPrefixOf (c :: pre') := by
      intro hp
      simp [splitAtSub, hp] at hno
    have hno' : splitAtSub atPat [] pre' = none := by
      have := hno
      simp only [splitAtSub, hnp, Bool.false_eq_true, ite_false] at this
      exact splitAtSub_none_acc _ _ _ _ this
    have hend' : ¬ ([' ', '@'] <:+ pre') := fun h => hend (sublist_suffix_trans c h)
    have hmain : ¬ atPat.isPrefixOf (c :: (pre' ++ atPat ++ suf)) = true := by
      intro hp
      match pre', hp, hnp, hend with
      | [], hp, _, _ => simp [atPat, List.isPrefixOf] at hp
      | [d], hp, _, hend =>
        simp [atPat, List.isPrefixOf] at hp
        exact hend (by rw [← hp.1, ← hp.2])
      | d :: e :: rest, hp, hnp, _ =>
        simp [atPat, List.isPrefixOf] at hp hnp
        exact hnp hp.1 hp.2.1 hp.2.2
    have step :
        splitAtSub atPat acc ((c :: pre') ++ atPat ++ suf)
          = splitAtSub atPat (acc ++ [c]) (pre' ++ atPat ++ suf) := by
      show (if atPat.isPrefixOf (c :: (pre' ++ atPat ++ suf)) = true
              then some (acc, c :: (pre' ++ atPat ++ suf))
              else splitAtSub atPat (acc ++ [c]) (pre' ++ atPat ++ suf)) = _
      rw [if_neg hmain]
    rw [step, ih (acc ++ [c]) suf hno' hend']
    simp

/-! ## Claims C7 and C8 -/

/-- C7: for every specifier of the URL form `"<name> @ <url>"` (the name may
carry an extras bracket group; the tail may carry a `";"`-delimited marker),
`parseDep` splits at the first occurrence of `" @ "`: the name is everything
before it and the version is everything from `" @ "` on, verbatim.  The
hypotheses say exactly that the displayed occurrence of `" @ "` is the first
one: `" @ "` does not occur inside `name` and `name` does not end in `" @"`. -/
theorem C7_url_form (name rest : String)
    (h1 : splitAtSub " @ ".data [] name.data = none)
    (h2 : ¬ ([' ', '@'] <:+ name.data)) :
    parseDep (name ++ " @ " ++ rest) = (name, " @ " ++ rest) := by
  have hdata : (name ++ " @ " ++ rest).data = name.data ++ atPat ++ rest.data := by
    simp [atPat]
  have h1' : splitAtSub atPat [] name.data = none := h1
  have key := splitAtSub_atPat_append name.data [] rest.data h1' h2
  simp only [List.nil_append] at key
  unfold parseDep
  rw [hdata]
  rw [show (" @ " : String).data = atPat from rfl, key]
  show (String.mk name.data, String.mk (atPat ++ rest.data)) = (name, " @ " ++ rest)
  have h3 : String.mk (atPat ++ rest.data) = " @ " ++ rest := by
    apply congrArg String.mk
    simp [atPat]
  rw [h3]

/-- C7 witness: the extras-and-marker example from the repository's tests. -/
theorem C7_url_form_witness :
    parseDep "name[fred,bar] @ http://foo.com ; python_version==2.7"
      = ("name[fred,bar]", " @ http://foo.com ; python_version==2.7") := by
  have h := C7_url_form "name[fred,bar]" "http://foo.com ; python_version==2.7"
    (by decide) (by decide)
  exact h

/-- C8 counterexample: `" a "` contains no `" @ "` and no operator character
outside an extras group, yet `parseDep` returns the trimmed name `("a", "")`,
not `(" a ", "")` as the claim states. -/
theorem C8_counterexample :
    splitAtSub " @ ".data [] (" a " : String).data = none ∧
    splitAtOp 0 [] (" a " : String).data = none ∧
    parseDep " a " ≠ ((" a " : String), "") := by
  refine ⟨by decide, by decide, by decide⟩

/-- C8 (amended): `parseDep` is a total function; on any input lacking a
version/URL marker — no `" @ "` substring and no character from
`{<, >, =, !, ~}` outside a balanced `[...]` extras group — it returns the
bare-form interpretation `(trimmed raw, "")`, which equals `(raw, "")`
exactly when `raw` carries no surrounding whitespace. -/
theorem C8_bare_form (raw : String)
    (h1 : splitAtSub " @ ".data [] raw.data = none)
    (h2 : splitAtOp 0 [] raw.data = none) :
    parseDep raw = (pyStrip raw, "") := by
  simp [parseDep, h1, h2]

/-- C8 witness: a bare specifier degrades to `(trimmed, "")` without error. -/
theorem C8_bare_form_witness : parseDep " a " = ("a", "") := by
  have h := C8_bare_form " a " (by decide) (by decide)
  rw [h]
  decide

/-! ## Claim C9 -/

/-- C9: the diff computation is a total pure function; `ext_dep_diff` holds
exactly the names in the symmetric difference of the declared `ext_deps`
names and the keys of `ext_imports`, and `int_dep_diff` is computed
identically over `int_deps` and `int_imports`; in particular, for
`pkg.ext_deps = [ExtDep "a" ""]` and empty imports, `ext_dep_diff = {"a"}`. -/
theorem C9_diff_engine :
    (∀ (pkg : PackageDeps) (ii ei : Imports) (n : String),
        n ∈ (computeDiff pkg ii ei).ext_dep_diff ↔
          (n ∈ pkg.ext_deps.map ExtDep.name ∧ n ∉ ei.map Prod.fst) ∨
          (n ∈ ei.map Prod.fst ∧ n ∉ pkg.ext_deps.map ExtDep.name)) ∧
    (∀ (pkg : PackageDeps) (ii ei : Imports) (n : String),
        n ∈ (computeDiff pkg ii ei).int_dep_diff ↔
          (n ∈ pkg.int_deps.map IntDep.name ∧ n ∉ ii.map Prod.fst) ∨
          (n ∈ ii.map Prod.fst ∧ n ∉ pkg.int_deps.map IntDep.name)) ∧
    (computeDiff ⟨"p", "pkgs/p", [⟨"a", ""⟩], []⟩ ([] : List (String × List String))
        ([] : List (String × List String))).ext_dep_diff = ["a"] := by
  refine ⟨?_, ?_, rfl⟩
  · intro pkg ii ei n
    exact mem_nameDiff _ _ n
  · intro pkg ii ei n
    exact mem_nameDiff _ _ n

/-! ## Lemmas about the merge primitives -/

theorem mem_dedupFirst (x : String) :
    ∀ (l seen : List String), x ∈ dedupFirst seen l ↔ x ∈ l ∧ x ∉ seen := by
  intro l
  induction l with
  | nil => intro seen; simp [dedupFirst]
  | cons y ys ih =>
    intro seen
    cases hy : seen.contains y with
    | true =>
      have hym := (contains_iff_mem seen y).1 hy
      rw [show dedupFirst seen (y :: ys) = dedupFirst seen ys from by simp [dedupFirst, hym]]
      rw [ih]
      simp only [List.mem_cons]
      constructor
      · rintro ⟨h1, h2⟩; exact ⟨Or.inr h1, h2⟩
      · rintro ⟨h1 | h1, h2⟩
        · exact absurd (h1 ▸ hym) h2
        · exact ⟨h1, h2⟩
    | false =>
      have hym : y ∉ seen := fun hm => by
        rw [(contains_iff_mem seen y).2 hm] at hy; cases hy
      rw [show dedupFirst seen (y :: ys) = y :: dedupFirst (y :: seen) ys from by
        simp [dedupFirst, hym]]
      simp only [List.mem_cons, ih (y :: seen)]
      constructor
      · rintro (rfl | ⟨h1, h2⟩)
        · exact ⟨Or.inl rfl, hym⟩
        · exact ⟨Or.inr h1, fun hm => h2 (Or.inr hm)⟩
      · rintro ⟨rfl | h1, h2⟩
        · exact Or.inl rfl
        · by_cases hxy : x = y
          · exact Or.inl hxy
          · exact Or.inr ⟨h1, fun hm => hm.elim hxy h2⟩

theorem mem_newDepsOf (x : String) (overlay orig : List String) :
    x ∈ newDepsOf overlay orig ↔ x ∈ overlay ∧ x ∉ orig := by
  unfold newDepsOf
  rw [mem_dedupFirst]
  simp [List.mem_filter]

theorem newDepsOf_self (od : List String) : newDepsOf od od = [] := by
  have h : od.filter (fun d => !od.contains d) = [] := by
    rw [List.filter_eq_nil_iff]
    intro a ha
    simpa using ha
  unfold newDepsOf
  rw [h]
  rfl

/-! ## Lemmas about the anchor-document accessors -/

theorem setKvFirst_get (key : String) (v : Val) :
    ∀ (L L' : List Line), setKvFirst L key v = some L' → secGet L' key = some v := by
  intro L
  induction L with
  | nil => intro L' h; simp [setKvFirst] at h
  | cons ln rest ih =>
    intro L' h
    match ln with
    | .kv k w =>
      by_cases hk : k = key
      · subst hk
        simp [setKvFirst] at h
        subst h
        simp [secGet]
      · simp only [setKvFirst, if_neg hk, Option.map_eq_some'] at h
        obtain ⟨I, hI, rfl⟩ := h
        simp only [secGet, if_neg hk]
        exact ih I hI
    | .raw s =>
      simp only [setKvFirst, Option.map_eq_some'] at h
      obtain ⟨I, hI, rfl⟩ := h
      simp only [secGet]
      exact ih I hI

theorem setKvFirst_frame (key : String) (v : Val) (k' : String) (hne : k' ≠ key) :
    ∀ (L L' : List Line), setKvFirst L key v = some L' → secGet L' k' = secGet L k' := by
  intro L
  induction L with
  | nil => intro L' h; simp [setKvFirst] at h
  | cons ln rest ih =>
    intro L' h
    match ln with
    | .kv k w =>
      by_cases hk : k = key
      · subst hk
        simp [setKvFirst] at h
        subst h
        simp [secGet, Ne.symm hne]
      · simp only [setKvFirst, if_neg hk, Option.map_eq_some'] at h
        obtain ⟨I, hI, rfl⟩ := h
        by_cases hk2 : k = k'
        · simp [secGet, hk2]
        · simp only [secGet, if_neg hk2]
          exact ih I hI
    | .raw s =>
      simp only [setKvFirst, Option.map_eq_some'] at h
      obtain ⟨I, hI, rfl⟩ := h
      simp only [secGet]
      exact ih I hI

theorem setKvFirst_of_get (key : String) (v : Val) :
    ∀ (L : List Line) (w : Val), secGet L key = some w →
      ∃ L', setKvFirst L key v = some L' := by
  intro L
  induction L with
  | nil => intro w h; simp [secGet] at h
  | cons ln rest ih =>
    intro w h
    match ln with
    | .kv k u =>
      by_cases hk : k = key
      · subst hk
        exact ⟨Line.kv k v :: rest, by simp [setKvFirst]⟩
      · simp only [secGet, if_neg hk] at h
        obtain ⟨I, hI⟩ := ih w h
        exact ⟨Line.kv k u :: I, by simp [setKvFirst, hk, hI]⟩
    | .raw s =>
      simp only [secGet] at h
      obtain ⟨I, hI⟩ := ih w h
      exact ⟨Line.raw s :: I, by simp [setKvFirst, hI]⟩

theorem setKvFirst_self (key : String) (v : Val) :
    ∀ (L : List Line), secGet L key = some v → setKvFirst L key v = some L := by
  intro L
  induction L with
  | nil => intro h; simp [secGet] at h
  | cons ln rest ih =>
    intro h
    match ln with
    | .kv k u =>
      by_cases hk : k = key
      · subst hk
        simp [secGet] at h
        subst h
        simp [setKvFirst]
      · simp only [secGet, if_neg hk] at h
        simp [setKvFirst, hk, ih h]
    | .raw s =>
      simp only [secGet] at h
      simp [setKvFirst, ih h]

theorem setKvFirst_none (key : String) (v : Val) :
    ∀ (L : List Line), setKvFirst L key v = none → secGet L key = none := by
  intro L
  induction L with
  | nil => intro _; rfl
  | cons ln rest ih =>
    intro h
    match ln with
    | .kv k u =>
      by_cases hk : k = key
      · subst hk; simp [setKvFirst] at h
      · simp only [setKvFirst, if_neg hk, Option.map_eq_none'] at h
        simp only [secGet, if_neg hk]
        exact ih h
    | .raw s =>
      simp only [setKvFirst, Option.map_eq_none'] at h
      simp only [secGet]
      exact ih h

theorem secGet_append (key : String) :
    ∀ (L1 L2 : List Line),
      secGet (L1 ++ L2) key =
        (match secGet L1 key with
         | some v => some v
         | none => secGet L2 key) := by
  intro L1
  induction L1 with
  | nil => intro L2; simp [secGet]
  | cons ln rest ih =>
    intro L2
    match ln with
    | .kv k w =>
      by_cases hk : k = key
      · subst hk; simp [secGet]
      · simp [secGet, hk, ih]
    | .raw s => simp [secGet, ih]

theorem replaceFirstSec_found (p : List String) (f : List Line → Option (List Line)) :
    ∀ (secs ss : List Sec), replaceFirstSec p f secs = some ss →
      ∃ L L', findSection secs p = some L ∧ f L = some L' ∧ findSection ss p = some L' := by
  intro secs
  induction secs with
  | nil => intro ss h; simp [replaceFirstSec] at h
  | cons s rest ih =>
    intro ss h
    by_cases hp : s.path = p
    · simp only [replaceFirstSec, if_pos hp, Option.map_eq_some'] at h
      obtain ⟨L', hL', rfl⟩ := h
      exact ⟨s.lines, L', by simp [findSection, hp], hL', by simp [findSection, hp]⟩
    · simp only [replaceFirstSec, if_neg hp, Option.map_eq_some'] at h
      obtain ⟨ss', hss', rfl⟩ := h
      obtain ⟨L, L', h1, h2, h3⟩ := ih ss' hss'
      exact ⟨L, L', by simp [findSection, hp, h1], h2, by simp [findSection, hp, h3]⟩

theorem replaceFirstSec_frame (p : List String) (f : List Line → Option (List Line)) :
    ∀ (secs ss : List Sec), replaceFirstSec p f secs = some ss →
      ∀ q, q ≠ p → findSection ss q = findSection secs q := by
  intro secs
  induction secs with
  | nil => intro ss h; simp [replaceFirstSec] at h
  | cons s rest ih =>
    intro ss h q hq
    by_cases hp : s.path = p
    · simp only [replaceFirstSec, if_pos hp, Option.map_eq_some'] at h
      obtain ⟨L', hL', rfl⟩ := h
      have hsq : ¬(s.path = q) := fun hh => hq (hh.symm.trans hp)
      simp [findSection, hsq]
    · simp only [replaceFirstSec, if_neg hp, Option.map_eq_some'] at h
      obtain ⟨ss', hss', rfl⟩ := h
      by_cases hsq : s.path = q
      · simp [findSection, hsq]
      · simp only [findSection, if_neg hsq]
        exact ih ss' hss' q hq

theorem replaceFirstSec_of_found (p : List String) (f : List Line → Option (List Line)) :
    ∀ (secs : List Sec) (L L' : List Line), findSection secs p = some L → f L = some L' →
      ∃ ss, replaceFirstSec p f secs = some ss := by
  intro secs
  induction secs with
  | nil => intro L L' h _; simp [findSection] at h
  | cons s rest ih =>
    intro L L' h hf
    by_cases hp : s.path = p
    · simp only [findSection, if_pos hp, Option.some.injEq] at h
      subst h
      exact ⟨{ s with lines := L' } :: rest, by simp [replaceFirstSec, hp, hf]⟩
    · simp only [findSection, if_neg hp] at h
      obtain ⟨ss, hss⟩ := ih L L' h hf
      exact ⟨s :: ss, by simp [replaceFirstSec, hp, hss]⟩

theorem replaceFirstSec_self (p : List String) (f : List Line → Option (List Line)) :
    ∀ (secs : List Sec) (L : List Line), findSection secs p = some L → f L = some L →
      replaceFirstSec p f secs = some secs := by
  intro secs
  induction secs with
  | nil => intro L h _; simp [findSection] at h
  | cons s rest ih =>
    intro L h hf
    by_cases hp : s.path = p
    · simp only [findSection, if_pos hp, Option.some.injEq] at h
      subst h
      simp only [replaceFirstSec, if_pos hp]
      rw [hf]
      rfl
    · simp only [findSection, if_neg hp] at h
      simp [replaceFirstSec, hp, ih L h hf]

theorem depsOfLines_spec {L : List Line} {od : List String} (h : depsOfLines L = some od) :
    secGet L "dependencies" = some (.arr od) := by
  unfold depsOfLines at h
  split at h
  · rename_i xs heq
    cases h
    exact heq
  · cases h

theorem getDeps_decompose {a : TomlDoc} {od : List String} (h : getDeps a = some od) :
    ∃ L, findSection a.sections ["project"] = some L ∧
      secGet L "dependencies" = some (.arr od) := by
  unfold getDeps at h
  cases hq : findSection a.sections ["project"] with
  | none => rw [hq] at h; cases h
  | some L =>
    rw [hq] at h
    exact ⟨L, rfl, depsOfLines_spec h⟩

/-- Setting the dependency array succeeds on any anchor whose
`project.dependencies` exists, yields the new array, and leaves every other
section untouched. -/
theorem setDeps_spec {a : TomlDoc} {od : List String} (h : getDeps a = some od)
    (xs : List String) :
    ∃ a', setDeps a xs = some a' ∧ getDeps a' = some xs ∧
      (∀ q, q ≠ ["project"] → findSection a'.sections q = findSection a.sections q) ∧
      a'.preamble = a.preamble := by
  obtain ⟨L, hfs, hsg⟩ := getDeps_decompose h
  obtain ⟨L', hset⟩ := setKvFirst_of_get "dependencies" (.arr xs) L _ hsg
  obtain ⟨ss, hss⟩ := replaceFirstSec_of_found ["project"]
    (fun L => setKvFirst L "dependencies" (.arr xs)) a.sections L L' hfs hset
  refine ⟨{ a with sections := ss }, ?_, ?_, ?_, rfl⟩
  · unfold setDeps
    rw [hss]
    rfl
  · obtain ⟨L0, L0', h1, h2, h3⟩ := replaceFirstSec_found _ _ _ _ hss
    rw [hfs] at h1
    cases h1
    rw [hset] at h2
    cases h2
    unfold getDeps
    rw [h3]
    simp only [Option.some_bind]
    unfold depsOfLines
    rw [setKvFirst_get _ _ _ _ hset]
  · intro q hq
    exact replaceFirstSec_frame _ _ _ _ hss q hq

theorem updateUvSources_spec {a : TomlDoc} {L : List Line}
    (h : findSection a.sections ["tool", "uv", "sources"] = some L)
    (m : List (String × Bool)) :
    ∃ a', updateUvSources a m = some a' ∧
      findSection a'.sections ["tool", "uv", "sources"] = some (upsertLines L m) ∧
      (∀ q, q ≠ ["tool", "uv", "sources"] → findSection a'.sections q = findSection a.sections q) ∧
      a'.preamble = a.preamble := by
  obtain ⟨ss, hss⟩ := replaceFirstSec_of_found ["tool", "uv", "sources"]
    (fun L => some (upsertLines L m)) a.sections L (upsertLines L m) h rfl
  refine ⟨{ a with sections := ss }, ?_, ?_, ?_, rfl⟩
  · unfold updateUvSources
    rw [hss]
    rfl
  · obtain ⟨L0, L0', h1, h2, h3⟩ := replaceFirstSec_found _ _ _ _ hss
    rw [h] at h1
    cases h1
    cases h2
    exact h3
  · intro q hq
    exact replaceFirstSec_frame _ _ _ _ hss q hq

theorem updateUvSources_frame {a a' : TomlDoc} {m : List (String × Bool)}
    (h : updateUvSources a m = some a') :
    ∀ q, q ≠ ["tool", "uv", "sources"] → findSection a'.sections q = findSection a.sections q := by
  intro q hq
  unfold updateUvSources at h
  rw [Option.map_eq_some'] at h
  obtain ⟨ss, hss, rfl⟩ := h
  exact replaceFirstSec_frame _ _ _ _ hss q hq

/-- `to_tomldoc` after resolving the anchor and its dependency array. -/
theorem to_tomldoc_unfold {c : Conf} {a : TomlDoc} {od : List String}
    (h1 : c._tomldoc = some a) (h2 : getDeps a = some od) :
    c.to_tomldoc =
      (match setDeps a (od ++ (newDepsOf c.project.dependencies od).map normDep) with
       | none => .error .keyError
       | some a1 =>
         match updateUvSources a1 (srcMapOf c) with
         | some a2 => .ok a2
         | none => .error .attrError) := by
  simp only [Conf.to_tomldoc, h1, h2]

/-- The dependency list serialized by `to_tomldoc` is the anchor list followed
by the (normalized) new dependencies. -/
theorem to_tomldoc_deps {c : Conf} {a : TomlDoc} {od : List String} {doc : TomlDoc}
    (h1 : c._tomldoc = some a) (h2 : getDeps a = some od) (h3 : c.to_tomldoc = .ok doc) :
    getDeps doc = some (od ++ (newDepsOf c.project.dependencies od).map normDep) := by
  rw [to_tomldoc_unfold h1 h2] at h3
  obtain ⟨a1, hsd, hgd1, hfr1, _⟩ :=
    setDeps_spec h2 (od ++ (newDepsOf c.project.dependencies od).map normDep)
  simp only [hsd] at h3
  cases hupd : updateUvSources a1 (srcMapOf c) with
  | none => simp only [hupd] at h3; simp at h3
  | some a2 =>
    simp only [hupd, Except.ok.injEq] at h3
    subst h3
    have hfr2 := updateUvSources_frame hupd ["project"] (by decide)
    unfold getDeps
    rw [hfr2]
    exact hgd1

/-! ## Claim C1 -/

/-- C1: serialization appends to the anchor's dependency list exactly the
overlay dependencies that are not string-equal to any anchor entry (exact
string set difference), each anchor line is emitted unchanged as a prefix,
dependencies without the semicolon-URL shape are appended verbatim, and on
the anchor `{"a>=1.0"}` with overlay `{"a>=1.0", "b>=2.0"}` exactly one new
line `"b>=2.0"` is appended with the `"a>=1.0"` line untouched. -/
theorem C1_merge_deps (c : Conf) (a : TomlDoc) (od : List String) (doc : TomlDoc)
    (h1 : c._tomldoc = some a) (h2 : getDeps a = some od) (h3 : c.to_tomldoc = .ok doc) :
    getDeps doc = some (od ++ (newDepsOf c.project.dependencies od).map normDep) ∧
    (∀ x, x ∈ newDepsOf c.project.dependencies od ↔ x ∈ c.project.dependencies ∧ x ∉ od) ∧
    (∀ d, hasUrlMarker d = false → normDep d = d) ∧
    Conf.to_tomldoc mergeConf = .ok mergeResult ∧
    getDeps mergeResult = some ["a>=1.0", "b>=2.0"] := by
  refine ⟨to_tomldoc_deps h1 h2 h3, fun x => mem_newDepsOf x _ _, ?_, rfl, rfl⟩
  intro d hd
  simp [normDep, hd]

/-- C1 witness: the merge example, obtained through the theorem. -/
theorem C1_merge_deps_witness :
    getDeps mergeResult =
      some (["a>=1.0"] ++ (newDepsOf mergeConf.project.dependencies ["a>=1.0"]).map normDep) :=
  (C1_merge_deps mergeConf mergeAnchor ["a>=1.0"] mergeResult rfl rfl rfl).1

/-! ## Claim C2 -/

/-- C2 counterexample: the text `cexText` loads successfully, its overlay is
not mutated, yet serialization returns a different text — the dependency
`"a @ http://y;m"` triggers the global semicolon pass, which rewrites the
document. -/
theorem C2_counterexample :
    (Conf.from_str cexText).bind Conf.to_str = .ok cexOutText ∧ cexOutText ≠ cexText :=
  ⟨rfl, by decide⟩

/-- C2 (amended): serializing an unmutated load is byte-identical for
canonically formatted texts whose anchor has a `project.dependencies`
array matched by the overlay list, whose sources write-back leaves the
anchor unchanged, and none of whose dependencies contains both `" @ "`
and `";"`. -/
theorem C2_roundtrip (t : String) (c : Conf) (a : TomlDoc) (od : List String)
    (hload : Conf.from_str t = .ok c)
    (h2 : c._tomldoc = some a)
    (h3 : printDoc a = t)
    (h4 : getDeps a = some od)
    (h5 : c.project.dependencies = od)
    (h6 : updateUvSources a (srcMapOf c) = some a)
    (h7 : c.project.dependencies.any hasUrlMarker = false) :
    c.to_str = .ok t := by
  have hnd : newDepsOf c.project.dependencies od = [] := by
    rw [h5]; exact newDepsOf_self od
  obtain ⟨L, hfs, hsg⟩ := getDeps_decompose h4
  have hset : setKvFirst L "dependencies" (.arr od) = some L :=
    setKvFirst_self "dependencies" (.arr od) L hsg
  have hrs : replaceFirstSec ["project"] (fun L => setKvFirst L "dependencies" (.arr od))
      a.sections = some a.sections :=
    replaceFirstSec_self _ _ a.sections L hfs hset
  have hsd : setDeps a od = some a := by
    unfold setDeps
    rw [hrs]
    rfl
  have htd : c.to_tomldoc = .ok a := by
    rw [to_tomldoc_unfold h2 h4, hnd]
    simp only [List.map_nil, List.append_nil, hsd, h6]
  unfold Conf.to_str
  rw [htd]
  simp only [h7, Bool.false_eq_true, if_false, h3]

/-- C2 witness: a concrete canonical text round-trips byte-identically. -/
theorem C2_roundtrip_witness : rtConf.to_str = .ok rtText :=
  C2_roundtrip rtText rtConf rtDoc ["a>=1.0"] rfl rfl rfl rfl rfl rfl rfl

/-! ## Lemmas about the sources upsert -/

theorem setSourceKey_get (L : List Line) (k : String) (b : Bool) :
    secGet (setSourceKey L k b) k = some (srcVal b) := by
  unfold setSourceKey
  cases hs : setKvFirst L k (srcVal b) with
  | some L' => exact setKvFirst_get _ _ _ _ hs
  | none =>
    rw [secGet_append]
    rw [setKvFirst_none _ _ _ hs]
    simp [secGet]

theorem setSourceKey_frame (L : List Line) (k : String) (b : Bool) (k' : String)
    (hne : k' ≠ k) : secGet (setSourceKey L k b) k' = secGet L k' := by
  unfold setSourceKey
  cases hs : setKvFirst L k (srcVal b) with
  | some L' => exact setKvFirst_frame _ _ _ hne _ _ hs
  | none =>
    rw [secGet_append]
    cases hq : secGet L k' with
    | some v => simp
    | none => simp [secGet, Ne.symm hne]

theorem upsertLines_frame (k : String) :
    ∀ (m : List (String × Bool)) (L : List Line), k ∉ m.map Prod.fst →
      secGet (upsertLines L m) k = secGet L k := by
  intro m
  induction m with
  | nil => intro L _; rfl
  | cons kb rest ih =>
    intro L hk
    simp only [List.map_cons, List.mem_cons] at hk
    push_neg at hk
    show secGet (upsertLines (setSourceKey L kb.1 kb.2) rest) k = secGet L k
    rw [ih _ hk.2]
    exact setSourceKey_frame L kb.1 kb.2 k hk.1

theorem upsertLines_get (k : String) (b : Bool) :
    ∀ (m : List (String × Bool)) (L : List Line), (m.map Prod.fst).Nodup → (k, b) ∈ m →
      secGet (upsertLines L m) k = some (srcVal b) := by
  intro m
  induction m with
  | nil => intro L _ h; cases h
  | cons kb rest ih =>
    intro L hnd hm
    simp only [List.map_cons, List.nodup_cons] at hnd
    rcases List.mem_cons.1 hm with heq | hmem
    · subst heq
      show secGet (upsertLines (setSourceKey L k b) rest) k = some (srcVal b)
      rw [upsertLines_frame k rest _ hnd.1]
      exact setSourceKey_get L k b
    · show secGet (upsertLines (setSourceKey L kb.1 kb.2) rest) k = some (srcVal b)
      exact ih _ hnd.2 hmem

/-! ## Claim C5 -/

/-- C5: when the anchor has a `tool.uv.sources` table, serialization succeeds
and updates that table in place with the overlay's sources mapping — keys are
added or overwritten with `\x7bworkspace = b\x7d` values, and anchor keys absent
from the mapping keep their old values; when that table path is absent,
serialization does not create `tool.una.deps` but fails: the fallback reads
`self.tool.una.deps` and `Una` has no `deps` field (`AttributeError`). -/
theorem C5_sources_merge :
    (∀ (L : List Line) (m : List (String × Bool)) (k : String) (b : Bool),
        (m.map Prod.fst).Nodup → (k, b) ∈ m →
        secGet (upsertLines L m) k = some (srcVal b)) ∧
    (∀ (L : List Line) (m : List (String × Bool)) (k : String),
        k ∉ m.map Prod.fst → secGet (upsertLines L m) k = secGet L k) ∧
    (∀ (c : Conf) (a : TomlDoc) (od : List String) (L : List Line),
        c._tomldoc = some a → getDeps a = some od →
        findSection a.sections ["tool", "uv", "sources"] = some L →
        ∃ doc, c.to_tomldoc = .ok doc ∧
          findSection doc.sections ["tool", "uv", "sources"] =
            some (upsertLines L (srcMapOf c))) ∧
    Conf.to_tomldoc noSourcesConf = .error .attrError := by
  refine ⟨fun L m k b hnd hm => upsertLines_get k b m L hnd hm,
    fun L m k hk => upsertLines_frame k m L hk, ?_, rfl⟩
  intro c a od L h1 h2 hL
  obtain ⟨a1, hsd, hgd1, hfr1, _⟩ :=
    setDeps_spec h2 (od ++ (newDepsOf c.project.dependencies od).map normDep)
  have hL1 : findSection a1.sections ["tool", "uv", "sources"] = some L := by
    rw [hfr1 ["tool", "uv", "sources"] (by decide)]
    exact hL
  obtain ⟨a2, hupd, hsrc, _, _⟩ := updateUvSources_spec hL1 (srcMapOf c)
  refine ⟨a2, ?_, hsrc⟩
  rw [to_tomldoc_unfold h1 h2]
  simp only [hsd, hupd]

/-- C5 witness: the update semantics and the success path at concrete inputs. -/
theorem C5_sources_merge_witness :
    secGet (upsertLines [] [("d", true)]) "d" = some (srcVal true) ∧
    secGet (upsertLines [Line.kv "e" (srcVal false)] [("d", true)]) "e" =
      secGet [Line.kv "e" (srcVal false)] "e" ∧
    (∃ doc, rtConf.to_tomldoc = .ok doc ∧
      findSection doc.sections ["tool", "uv", "sources"] =
        some (upsertLines [] (srcMapOf rtConf))) :=
  ⟨C5_sources_merge.1 [] [("d", true)] "d" true (by decide) (by decide),
   C5_sources_merge.2.1 [Line.kv "e" (srcVal false)] [("d", true)] "e" (by decide),
   C5_sources_merge.2.2.1 rtConf rtDoc ["a>=1.0"] [] rfl rfl rfl⟩

/-! ## Lemmas about the semicolon passes -/

theorem semisSpaced_cons_ne {c : Char} (h : (c == ';') = false) (l : List Char) :
    semisSpaced (c :: l) = semisSpaced l := by
  cases l with
  | nil => simp [semisSpaced, h]
  | cons d l' => simp [semisSpaced, h]

theorem semisSpaced_semiSpace : ∀ l, semisSpaced (semiSpace l) = true := by
  intro l
  induction l with
  | nil => rfl
  | cons c rest ih =>
    cases hc : c == ';' with
    | true =>
      have hc' : c = ';' := eq_of_beq hc
      subst hc'
      rw [show semiSpace (';' :: rest) = ';' :: ' ' :: semiSpace rest from by
        simp [semiSpace]]
      rw [show semisSpaced (';' :: ' ' :: semiSpace rest)
          = ((!(';' == ';') || (' ' == ' ')) && semisSpaced (' ' :: semiSpace rest)) from rfl]
      rw [semisSpaced_cons_ne (by decide)]
      simp [ih]
    | false =>
      rw [show semiSpace (c :: rest) = c :: semiSpace rest from by simp [semiSpace, hc]]
      rw [semisSpaced_cons_ne hc]
      exact ih

theorem squeeze_cons (e : Char) (X : List Char) : ∃ T, squeeze (e :: X) = e :: T := by
  cases X with
  | nil => exact ⟨[], rfl⟩
  | cons d rest =>
    cases h : (e == ' ' && d == ' ') with
    | true =>
      simp only [Bool.and_eq_true] at h
      have he : e = ' ' := eq_of_beq h.1
      have hd : d = ' ' := eq_of_beq h.2
      subst he; subst hd
      exact ⟨squeeze rest, by simp [squeeze]⟩
    | false => exact ⟨squeeze (d :: rest), by simp [squeeze, h]⟩

theorem semisSpaced_squeeze_aux :
    ∀ (n : Nat) (l : List Char), l.length ≤ n → semisSpaced l = true →
      semisSpaced (squeeze l) = true := by
  intro n
  induction n with
  | zero =>
    intro l hl _
    have : l = [] := List.eq_nil_of_length_eq_zero (Nat.le_zero.1 hl)
    subst this
    rfl
  | succ n ih =>
    intro l hl h
    match l with
    | [] => rfl
    | [c] => simpa [squeeze] using h
    | c :: d :: rest =>
      cases hcd : (c == ' ' && d == ' ') with
      | true =>
        simp only [Bool.and_eq_true] at hcd
        have hc' : c = ' ' := eq_of_beq hcd.1
        have hd' : d = ' ' := eq_of_beq hcd.2
        subst hc'; subst hd'
        have hr : semisSpaced rest = true := by
          rw [semisSpaced_cons_ne (by decide), semisSpaced_cons_ne (by decide)] at h
          exact h
        have hlen : rest.length ≤ n := by
          simp only [List.length_cons] at hl
          omega
        rw [show squeeze (' ' :: ' ' :: rest) = ' ' :: squeeze rest from by simp [squeeze]]
        rw [semisSpaced_cons_ne (by decide)]
        exact ih rest hlen hr
      | false =>
        rw [show squeeze (c :: d :: rest) = c :: squeeze (d :: rest) from by
          simp [squeeze, hcd]]
        have hlen : (d :: rest).length ≤ n := by
          simp only [List.length_cons] at hl ⊢
          omega
        cases hc : c == ';' with
        | true =>
          have hc' : c = ';' := eq_of_beq hc
          subst hc'
          have hexp : semisSpaced (';' :: d :: rest)
              = ((!(';' == ';') || (d == ' ')) && semisSpaced (d :: rest)) := rfl
          rw [hexp] at h
          simp only [Bool.and_eq_true, Bool.or_eq_true] at h
          have hd : (d == ' ') = true := by
            rcases h.1 with h' | h'
            · simp at h'
            · exact h'
          have hd' : d = ' ' := eq_of_beq hd
          subst hd'
          have htail := ih (' ' :: rest) hlen h.2
          obtain ⟨T, hT⟩ := squeeze_cons ' ' rest
          rw [hT] at htail ⊢
          rw [show semisSpaced (';' :: ' ' :: T)
              = ((!(';' == ';') || (' ' == ' ')) && semisSpaced (' ' :: T)) from rfl]
          simp [htail]
        | false =>
          rw [semisSpaced_cons_ne hc] at h
          rw [semisSpaced_cons_ne hc]
          exact ih (d :: rest) hlen h

/-- Every semicolon in the output of the global pass is followed by at least
one space. -/
theorem semisSpaced_semiFix (s : String) : semisSpaced (semiFix s).data = true :=
  semisSpaced_squeeze_aux (semiSpace s.data).length (semiSpace s.data) (Nat.le_refl _)
    (semisSpaced_semiSpace s.data)

/-! ## Claim C3 -/

/-- C3 counterexample: the loaded document of `t3Text` has a dependency
containing both `" @ "` and `";"`, so the global pass runs — but the comment
line `"#;  note"` ends up with a semicolon followed by two spaces, refuting
"every semicolon followed by exactly one space". -/
theorem C3_counterexample :
    hasUrlMarker "n @ http://x;cond" = true ∧
    (Conf.from_str t3Text).bind Conf.to_str = .ok t3OutText ∧
    semisSingle t3OutText.data = false :=
  ⟨rfl, rfl, by decide⟩

/-- C3 (amended): when some current dependency contains both `" @ "` and
`";"`, `to_str` applies to the whole rendered document the replacement of
`";"` by `"; "` followed by one collapsing pass of `"  "` to `" "`
(`semiFix`), after which every semicolon is followed by at least one space
(not exactly one in general); when no such dependency exists the pass is
skipped and the rendered text is returned unchanged. -/
theorem C3_global_pass (c : Conf) (doc : TomlDoc) (h : c.to_tomldoc = .ok doc) :
    (c.project.dependencies.any hasUrlMarker = true →
      c.to_str = .ok (semiFix (printDoc doc)) ∧
      semisSpaced (semiFix (printDoc doc)).data = true) ∧
    (c.project.dependencies.any hasUrlMarker = false →
      c.to_str = .ok (printDoc doc)) := by
  constructor
  · intro ht
    constructor
    · unfold Conf.to_str
      rw [h]
      simp only [ht, if_true]
    · exact semisSpaced_semiFix (printDoc doc)
  · intro ht
    unfold Conf.to_str
    rw [h]
    simp only [ht, Bool.false_eq_true, if_false]

/-- C3 witness: the pass applied to a concrete serialization. -/
theorem C3_global_pass_witness :
    urlDepConf.to_str = .ok (semiFix (printDoc urlDepResult)) ∧
    semisSpaced (semiFix (printDoc urlDepResult)).data = true :=
  (C3_global_pass urlDepConf urlDepResult rfl).1 rfl

/-! ## Lemmas about the per-dependency rewrite -/

theorem pySplitChar_ne_nil (sep : Char) : ∀ l, pySplitChar sep l ≠ [] := by
  intro l
  cases l with
  | nil => simp [pySplitChar]
  | cons c rest =>
    cases h : (c == sep) with
    | true => simp [pySplitChar, h]
    | false =>
      simp only [pySplitChar, h, Bool.false_eq_true, if_false]
      cases heq : pySplitChar sep rest <;> simp

theorem fixJoin_cons (c : Char) (p : List Char) (ps : List (List Char)) :
    fixJoin (c :: p) ps = c :: fixJoin p ps := by
  cases ps with
  | nil => rfl
  | cons q rest => simp [fixJoin]

theorem fixJoin_pySplit : ∀ (l p : List Char) (ps : List (List Char)),
    pySplitChar ';' l = p :: ps → fixJoin p ps = semiSpace l := by
  intro l
  induction l with
  | nil =>
    intro p ps h
    simp only [pySplitChar] at h
    cases h
    rfl
  | cons c rest ih =>
    intro p ps h
    cases hc : (c == ';') with
    | true =>
      have hc' : c = ';' := eq_of_beq hc
      simp only [pySplitChar, hc, if_true] at h
      cases h
      cases hq : pySplitChar ';' rest with
      | nil => exact absurd hq (pySplitChar_ne_nil ';' rest)
      | cons q qs =>
        subst hc'
        rw [show fixJoin [] (q :: qs) = ';' :: ' ' :: fixJoin q qs from rfl]
        rw [ih q qs hq]
        simp [semiSpace]
    | false =>
      cases hq : pySplitChar ';' rest with
      | nil => exact absurd hq (pySplitChar_ne_nil ';' rest)
      | cons w ws =>
        have h2 : (c :: w) :: ws = p :: ps := by
          rw [show pySplitChar ';' (c :: rest) = (c :: w) :: ws from by
            simp [pySplitChar, hc, hq]] at h
          exact h
        injection h2 with ha hb
        subst ha
        subst hb
        rw [fixJoin_cons, ih w ws hq]
        simp [semiSpace, hc]

theorem fixSemis_eq_semiSpace (d : String) : fixSemis d = ⟨semiSpace d.data⟩ := by
  unfold fixSemis
  cases hq : pySplitChar ';' d.data with
  | nil => exact absurd hq (pySplitChar_ne_nil ';' d.data)
  | cons p ps =>
    show (⟨fixJoin p ps⟩ : String) = ⟨semiSpace d.data⟩
    rw [fixJoin_pySplit d.data p ps hq]

/-! ## Claim C4 -/

/-- C4 counterexample: the new dependency `"a @ u; m"` (whose semicolon is
already followed by a space) is appended as `"a @ u;  m"` — split on `";"`
and space-prefixed re-join yields a double space, so the separator in the
appended line is not `"; "` with exactly one space. -/
theorem C4_counterexample :
    Conf.to_tomldoc urlDepConf = .ok urlDepResult ∧
    getDeps urlDepResult = some ["a @ u;  m"] ∧
    semisSingle ("a @ u;  m" : String).data = false :=
  ⟨rfl, rfl, by decide⟩

/-- C4 (amended): a new dependency containing both `" @ "` and `";"` is
rewritten before appending by splitting on `";"`, keeping the first segment
and prefixing each later segment with one space (equivalently: one space is
inserted after every semicolon), which guarantees at least one space — not
exactly one — after each semicolon of the appended line. -/
theorem C4_rewrite (d : String) (h : hasUrlMarker d = true) :
    normDep d = fixSemis d ∧
    fixSemis d = ⟨semiSpace d.data⟩ ∧
    semisSpaced (fixSemis d).data = true := by
  refine ⟨by simp [normDep, h], fixSemis_eq_semiSpace d, ?_⟩
  rw [fixSemis_eq_semiSpace d]
  exact semisSpaced_semiSpace d.data

/-- C4 witness: the rewrite at a concrete triggering dependency. -/
theorem C4_rewrite_witness :
    normDep "a @ u;m" = fixSemis "a @ u;m" ∧
    fixSemis "a @ u;m" = ⟨semiSpace ("a @ u;m" : String).data⟩ ∧
    semisSpaced (fixSemis "a @ u;m").data = true :=
  C4_rewrite "a @ u;m" rfl

/-! ## Lemmas about the key rewrite -/

theorem jobjAppend_nil : ∀ o : JObj, jobjAppend o .nil = o
  | .nil => rfl
  | .cons k v tl => by
    show JObj.cons k v (jobjAppend tl .nil) = JObj.cons k v tl
    rw [jobjAppend_nil tl]

theorem renObj_cons (k : String) (v : Json) (tl : JObj) :
    renObj (.cons k v tl) =
      (if hasChar k '-'
       then ((renObj tl).1, .cons (dashToUnderscore k) (renameJson v) (renObj tl).2)
       else (.cons k (renameJson v) (renObj tl).1, (renObj tl).2)) := rfl

theorem jobjHypKey_append : ∀ o1 o2 : JObj,
    jobjHypKey (jobjAppend o1 o2) = (jobjHypKey o1 || jobjHypKey o2)
  | .nil, o2 => by simp [jobjAppend, jobjHypKey]
  | .cons k v tl, o2 => by
    show (hasChar k '-' || jsonHypKey v || jobjHypKey (jobjAppend tl o2)) = _
    rw [jobjHypKey_append tl o2]
    show _ = ((hasChar k '-' || jsonHypKey v || jobjHypKey tl) || jobjHypKey o2)
    simp [Bool.or_assoc]

theorem jobjTopDash_append : ∀ o1 o2 : JObj,
    jobjTopDash (jobjAppend o1 o2) = (jobjTopDash o1 || jobjTopDash o2)
  | .nil, o2 => by simp [jobjAppend, jobjTopDash]
  | .cons k v tl, o2 => by
    show (hasChar k '-' || jobjTopDash (jobjAppend tl o2)) = _
    rw [jobjTopDash_append tl o2]
    show _ = ((hasChar k '-' || jobjTopDash tl) || jobjTopDash o2)
    simp [Bool.or_assoc]

theorem hasChar_dashToUnderscore (k : String) : hasChar (dashToUnderscore k) '-' = false := by
  show (k.data.map (fun c => if c == '-' then '_' else c)).any (fun d => d == '-') = false
  rw [List.any_map]
  rw [List.any_eq_false]
  intro c _
  by_cases hc : (c == '-') = true
  · simp [Function.comp, hc]
  · simp only [Bool.not_eq_true] at hc
    simp [Function.comp, hc]

mutual
theorem renameJson_noHyp : ∀ j : Json, jsonHypKey (renameJson j) = false
  | .jStr _ => rfl
  | .jBool _ => rfl
  | .jArr _ => rfl
  | .jObj o => by
    show jobjHypKey (jobjAppend (renObj o).1 (renObj o).2) = false
    rw [jobjHypKey_append, renObj_fst_noHyp o, renObj_snd_noHyp o]
    rfl
theorem renObj_fst_noHyp : ∀ o : JObj, jobjHypKey (renObj o).1 = false
  | .nil => rfl
  | .cons k v tl => by
    cases hk : hasChar k '-' with
    | true =>
      simp only [renObj_cons, hk, if_true]
      exact renObj_fst_noHyp tl
    | false =>
      simp only [renObj_cons, hk, Bool.false_eq_true, if_false]
      show (hasChar k '-' || jsonHypKey (renameJson v) || jobjHypKey (renObj tl).1) = false
      rw [hk, renameJson_noHyp v, renObj_fst_noHyp tl]
      rfl
theorem renObj_snd_noHyp : ∀ o : JObj, jobjHypKey (renObj o).2 = false
  | .nil => rfl
  | .cons k v tl => by
    cases hk : hasChar k '-' with
    | true =>
      simp only [renObj_cons, hk, if_true]
      show (hasChar (dashToUnderscore k) '-' || jsonHypKey (renameJson v)
        || jobjHypKey (renObj tl).2) = false
      rw [hasChar_dashToUnderscore, renameJson_noHyp v, renObj_snd_noHyp tl]
      rfl
    | false =>
      simp only [renObj_cons, hk, Bool.false_eq_true, if_false]
      exact renObj_snd_noHyp tl
end

mutual
theorem renameJson_id_of_noHyp : ∀ j : Json, jsonHypKey j = false → renameJson j = j
  | .jStr _, _ => rfl
  | .jBool _, _ => rfl
  | .jArr _, _ => rfl
  | .jObj o, h => by
    have ho : jobjHypKey o = false := h
    show Json.jObj (jobjAppend (renObj o).1 (renObj o).2) = Json.jObj o
    rw [renObj_id_of_noHyp o ho]
    rw [jobjAppend_nil]
theorem renObj_id_of_noHyp : ∀ o : JObj, jobjHypKey o = false → renObj o = (o, .nil)
  | .nil, _ => rfl
  | .cons k v tl, h => by
    have h' : ((hasChar k '-' || jsonHypKey v) || jobjHypKey tl) = false := h
    simp only [Bool.or_eq_false_iff] at h'
    obtain ⟨⟨h1, h2⟩, h3⟩ := h'
    rw [renObj_cons]
    simp only [h1, Bool.false_eq_true, if_false]
    rw [renameJson_id_of_noHyp v h2, renObj_id_of_noHyp tl h3]
end

theorem renObj_fst_topDash : ∀ o : JObj, jobjTopDash (renObj o).1 = false
  | .nil => rfl
  | .cons k v tl => by
    cases hk : hasChar k '-' with
    | true =>
      simp only [renObj_cons, hk, if_true]
      exact renObj_fst_topDash tl
    | false =>
      simp only [renObj_cons, hk, Bool.false_eq_true, if_false]
      show (hasChar k '-' || jobjTopDash (renObj tl).1) = false
      rw [hk, renObj_fst_topDash tl]
      rfl

theorem renObj_snd_topDash : ∀ o : JObj, jobjTopDash (renObj o).2 = false
  | .nil => rfl
  | .cons k v tl => by
    cases hk : hasChar k '-' with
    | true =>
      simp only [renObj_cons, hk, if_true]
      show (hasChar (dashToUnderscore k) '-' || jobjTopDash (renObj tl).2) = false
      rw [hasChar_dashToUnderscore, renObj_snd_topDash tl]
      rfl
    | false =>
      simp only [renObj_cons, hk, Bool.false_eq_true, if_false]
      exact renObj_snd_topDash tl

theorem renObj_snd_nil_of_topDash : ∀ o : JObj, jobjTopDash o = false → (renObj o).2 = .nil
  | .nil, _ => rfl
  | .cons k v tl, h => by
    have h' : (hasChar k '-' || jobjTopDash tl) = false := h
    simp only [Bool.or_eq_false_iff] at h'
    obtain ⟨h1, h2⟩ := h'
    simp only [renObj_cons, h1, Bool.false_eq_true, if_false]
    exact renObj_snd_nil_of_topDash tl h2

mutual
theorem renameJson_ne_of_hyp : ∀ j : Json, jsonHypKey j = true → renameJson j ≠ j
  | .jStr _, h => Bool.noConfusion h
  | .jBool _, h => Bool.noConfusion h
  | .jArr _, h => Bool.noConfusion h
  | .jObj o, h => by
    intro heq
    have hobj : jobjAppend (renObj o).1 (renObj o).2 = o := by
      injection heq
    cases htop : jobjTopDash o with
    | true =>
      have hres : jobjTopDash (jobjAppend (renObj o).1 (renObj o).2) = false := by
        rw [jobjTopDash_append, renObj_fst_topDash, renObj_snd_topDash]
        rfl
      rw [hobj, htop] at hres
      cases hres
    | false =>
      have hnil := renObj_snd_nil_of_topDash o htop
      rw [hnil, jobjAppend_nil] at hobj
      exact renObjFst_ne o h htop hobj
theorem renObjFst_ne : ∀ o : JObj, jobjHypKey o = true → jobjTopDash o = false →
    (renObj o).1 ≠ o
  | .nil, h, _ => Bool.noConfusion h
  | .cons k v tl, h, htop => by
    intro heq
    have htop' : (hasChar k '-' || jobjTopDash tl) = false := htop
    simp only [Bool.or_eq_false_iff] at htop'
    obtain ⟨h1, h2⟩ := htop'
    have hor : (jsonHypKey v || jobjHypKey tl) = true := by
      have hh : ((hasChar k '-' || jsonHypKey v) || jobjHypKey tl) = true := h
      rw [h1] at hh
      simpa using hh
    have hfst : (renObj (.cons k v tl)).1 = .cons k (renameJson v) (renObj tl).1 := by
      simp only [renObj_cons, h1, Bool.false_eq_true, if_false]
    rw [hfst] at heq
    injection heq with hk0 hv0 htl0
    have hor' : jsonHypKey v = true ∨ jobjHypKey tl = true := by
      simpa [Bool.or_eq_true] using hor
    rcases hor' with hv | htl
    · exact renameJson_ne_of_hyp v hv hv0
    · exact renObjFst_ne tl htl h2 htl0
end

/-! ## Claim C6 -/

/-- C6 counterexample: a parsed structure whose only hyphenated key sits in a
table nested inside an array is returned entirely unchanged by the rename —
`_rename_keys` never enters lists, so "including tables nested inside arrays"
fails. -/
theorem C6_counterexample :
    renameJson hyphenInArray = hyphenInArray ∧ jsonHypKeyDeep hyphenInArray = true :=
  ⟨rfl, rfl⟩

/-- C6 (amended): on load every hyphenated key reachable through tables
(without crossing an array) is rewritten to underscores — the renamed
structure has no such key left — while arrays and their contents are passed
through untouched, and the retained format-preservation anchor is the
original pre-rewrite document, kept unmodified. -/
theorem C6_rename_on_load :
    (∀ j : Json, jsonHypKey (renameJson j) = false) ∧
    (∀ xs : JArr, renameJson (.jArr xs) = .jArr xs) ∧
    (∀ (d : TomlDoc) (c : Conf), Conf.from_tomldoc d = .ok c → c._tomldoc = some d) := by
  refine ⟨renameJson_noHyp, fun xs => rfl, ?_⟩
  intro d c h
  unfold Conf.from_tomldoc at h
  split at h
  · simp at h
  · rename_i p t hm
    injection h with h2
    rw [← h2]

/-- C6 witness: the rename and anchor clauses at concrete inputs. -/
theorem C6_rename_on_load_witness :
    jsonHypKey (renameJson dashTable) = false ∧ tinyConf._tomldoc = some tinyDoc :=
  ⟨C6_rename_on_load.1 dashTable, C6_rename_on_load.2.2 tinyDoc tinyConf rfl⟩

/-! ## Claim C10 -/

/-- C10 counterexample: `plainDoc` has no hyphenated key, its load succeeds,
and the key rewrite leaves the caller's parsed structure exactly equal to
what was passed in — refuting "the caller's document no longer equals what
was passed in". -/
theorem C10_counterexample :
    Conf.from_tomldoc plainDoc = .ok plainConf ∧
    renameJson (toJson plainDoc) = toJson plainDoc :=
  ⟨rfl, rfl⟩

/-- C10 (amended): loading from a parsed document applies the
hyphen-to-underscore rewrite to the caller's structure (the typed fields are
decoded from `renameJson` of its dict view) while the retained anchor is the
pre-rewrite original; the caller's structure differs from what was passed in
exactly when some table key reachable without crossing an array contains a
hyphen. -/
theorem C10_inplace_rename :
    (∀ (d : TomlDoc) (c : Conf), Conf.from_tomldoc d = .ok c →
       c._tomldoc = some d ∧
       decodeConf (renameJson (toJson d)) = some (c.project, c.tool)) ∧
    (∀ j : Json, jsonHypKey j = true → renameJson j ≠ j) ∧
    (∀ j : Json, jsonHypKey j = false → renameJson j = j) := by
  refine ⟨?_, renameJson_ne_of_hyp, renameJson_id_of_noHyp⟩
  intro d c h
  unfold Conf.from_tomldoc at h
  split at h
  · simp at h
  · rename_i p t hm
    injection h with h2
    constructor
    · rw [← h2]
    · rw [← h2]
      exact hm

/-- C10 witness: the anchor/decode clauses at a hyphen-free document, the
inequality clause at a hyphenated table, and the equality clause at the
hyphen-free dict view. -/
theorem C10_inplace_rename_witness :
    plainConf._tomldoc = some plainDoc ∧
    decodeConf (renameJson (toJson plainDoc)) = some (plainConf.project, plainConf.tool) ∧
    renameJson dashTable ≠ dashTable ∧
    renameJson (toJson plainDoc) = toJson plainDoc :=
  ⟨(C10_inplace_rename.1 plainDoc plainConf rfl).1,
   (C10_inplace_rename.1 plainDoc plainConf rfl).2,
   C10_inplace_rename.2.1 dashTable rfl,
   C10_inplace_rename.2.2 (toJson plainDoc) rfl⟩
